import Mathlib

/-!
Formal model of the kindled note service (src/main.py, src/models.py).

Strings are embedded as lists of Unicode codepoints (`List Nat`), so that
every definition is executable and decidable.  External collaborators
(MongoDB, hashlib's SHA-256, the Stream moderation API, `unicodedata.normalize`)
are modelled as explicit parameters, exactly at the boundary where the source
code calls them; everything else is translated from the source.
-/

namespace Kindled

/-- Codepoints of a Lean string literal, for readable concrete inputs. -/
def str (s : String) : List Nat := s.data.map Char.toNat

/-- ASCII lower-casing of one codepoint, the case folding used both by
Python's `.lower()` and by the `$options: "i"` regex flag on the ASCII
slugs this service generates. -/
def charLower (c : Nat) : Nat := if 65 ≤ c ∧ c ≤ 90 then c + 32 else c

/-- `s.lower()` on a codepoint string. -/
def lowerStr (s : List Nat) : List Nat := s.map charLower

/-- Little-endian decimal digit codepoints of `n`, with explicit fuel so the
definition is structural and kernel-evaluable; `fuel = n` suffices. -/
def decAux : Nat → Nat → List Nat
  | 0, _ => []
  | fuel + 1, n => if n = 0 then [] else (n % 10 + 48) :: decAux fuel (n / 10)

/-- Decimal digit characters of a natural number, as produced by
Python's `str(counter)`. -/
def natDecimal (n : Nat) : List Nat :=
  if n = 0 then [48] else (decAux n n).reverse

/-- The `counter`-th name tried by the collision loop of
`generate_unique_name`: the base slug itself for `counter = 0`, and
`f"{word1}-{word2}{suffix}"` with `suffix = f"-{counter}"` afterwards. -/
def candidate (base : List Nat) (k : Nat) : List Nat :=
  if k = 0 then base else base ++ 45 :: natDecimal k

/-- The membership test of the `while` loop in `generate_unique_name`
(line 168 of src/main.py): `unique_name.lower() in (name.lower() for name in existing_names)`. -/
def taken (existing : List (List Nat)) (s : List Nat) : Bool :=
  (existing.map lowerStr).contains (lowerStr s)

/-- The `while` loop of `generate_unique_name`, with explicit fuel.
The source loop runs unboundedly; `fuel = existing.length + 1` is proved
sufficient below (the loop body is never reached with exhausted fuel). -/
def genLoop (existing : List (List Nat)) (base : List Nat) : Nat → Nat → List Nat
  | 0, k => candidate base k
  | fuel + 1, k =>
      if taken existing (candidate base k) then genLoop existing base fuel (k + 1)
      else candidate base k

/-- `f"{word1}-{word2}"` (line 158 of src/main.py); 45 is '-'. -/
def base_slug (word1 word2 : List Nat) : List Nat := word1 ++ 45 :: word2

/-- Is `c` an ASCII decimal digit codepoint. -/
def isDigitCp (c : Nat) : Bool := 48 ≤ c && c ≤ 57

/-- The case-insensitive regex `^{re.escape(base_slug)}(?:-\d+)?$` used in the
`distinct` query of `generate_unique_name` (line 159 of src/main.py):
`name` matches iff, after case folding, it is the base itself or the base
followed by a hyphen and one or more decimal digits. -/
def matchesPattern (base name : List Nat) : Bool :=
  let lb := lowerStr base
  let ln := lowerStr name
  ln == lb ||
    (lb.isPrefixOf ln &&
      match ln.drop lb.length with
      | 45 :: ds => !ds.isEmpty && ds.all isDigitCp
      | _ => false)

/-- The fixed vocabulary `BIBLE_WORDS` (lines 137–151 of src/main.py),
transcribed faithfully: the missing comma after `"wisdom"` makes Python
concatenate the adjacent literals into the single entry `"wisdomabel"`,
and `"water"` appears twice. -/
def BIBLE_WORDS : List (List Nat) :=
  [str "light", str "hope", str "peace", str "grace", str "joy", str "truth",
   str "vine", str "lamb", str "seed", str "star", str "bread", str "rock",
   str "path", str "gift", str "ark", str "fish", str "well", str "door",
   str "oil", str "crown", str "prayer", str "bible", str "church", str "faith",
   str "love", str "mercy", str "praise", str "shepherd", str "soul",
   str "wisdomabel", str "levi", str "amos", str "noah", str "ruth", str "ezra",
   str "luke", str "mark", str "joel", str "paul", str "john", str "mary",
   str "anna", str "adam", str "eve", str "matthew", str "david", str "samuel",
   str "joseph", str "elijah", str "benjamin", str "isaac", str "jacob",
   str "river", str "hill", str "rain", str "water", str "wind", str "sun",
   str "fig", str "sand", str "stone", str "water", str "cloud", str "mountain",
   str "tree", str "flower"]

/-- A stored MongoDB document of the `notes` collection.  `oid` stands for the
store-assigned `_id` (whose embedded timestamp yields `created_at`);
`edit_code` holds the stored digest, as in the database;
`type` is absent (`none`) on every document the note endpoints insert. -/
structure Doc where
  oid : Nat
  title : List Nat
  content : List Nat
  edit_code : List Nat
  unique_name : List Nat
  type : Option (List Nat)
deriving DecidableEq, Repr

/-- A JSON scalar value in a response body. -/
inductive JVal where
  | s : List Nat → JVal
  | n : Nat → JVal
  | b : Bool → JVal
  | null : JVal
deriving DecidableEq, Repr

/-- A response body: a serialized entry, the list envelope of `GET /notes/`,
an error object, or the delete acknowledgement. -/
inductive Body where
  | entry : List (List Nat × JVal) → Body
  | listing : List (List Nat × JVal) → List (List (List Nat × JVal)) → Body
  | err : List (List Nat × JVal) → Body
  | deleted : List (List Nat × JVal) → Body
deriving DecidableEq, Repr

/-- A `JSONResponse`: status code and body. -/
structure Response where
  status : Nat
  body : Body
deriving DecidableEq, Repr

/-- The serialized entries contained in a response: the single entry of a
200/201 document response, or the `data` array of a listing. -/
def entriesOf (r : Response) : List (List (List Nat × JVal)) :=
  match r.body with
  | .entry f => [f]
  | .listing _ ds => ds
  | _ => []

/-- `serialize_doc` (lines 102–111 of src/main.py): the JSON-friendly dict
with exactly the keys id, title, content, created_at, unique_name, type.
`str(doc["_id"])` and the ObjectId generation time are both rendered from
`oid`, faithfully to their derivation from `_id` alone. -/
def serialize_doc (d : Doc) : List (List Nat × JVal) :=
  [(str "id", .s (natDecimal d.oid)),
   (str "title", .s d.title),
   (str "content", .s d.content),
   (str "created_at", .s (natDecimal d.oid)),
   (str "unique_name", .s d.unique_name),
   (str "type", match d.type with | some t => .s t | none => .null)]

/-- The `distinct("unique_name", {$regex pattern, $options i})` query of
`generate_unique_name` (lines 160–163 of src/main.py): the distinct stored
unique names matching the base pattern. -/
def existing_names (store : List Doc) (base : List Nat) : List (List Nat) :=
  ((store.map Doc.unique_name).filter (matchesPattern base)).dedup

/-- `generate_unique_name` (lines 153–172 of src/main.py).  The two
`random.choice(BIBLE_WORDS)` draws are external randomness, modelled as the
parameters `word1`, `word2`; the collection is modelled as the list of stored
documents.  (The `title` parameter of the source function is never used.) -/
def generate_unique_name (store : List Doc) (word1 word2 : List Nat) : List Nat :=
  let base := base_slug word1 word2
  let ex := existing_names store base
  genLoop ex base (ex.length + 1) 0

/-- The filter `{"edit_code": h, "unique_name": n}` used by edit and delete. -/
def editMatch (h n : List Nat) (d : Doc) : Bool :=
  d.edit_code == h && d.unique_name == n

/-- Mongo `find_one_and_update(filter, {$set: …}, return_document=True)` on a
list store: update the first matching document, returning the updated
document (or `none`) and the new store. -/
def find_one_and_update (p : Doc → Bool) (upd : Doc → Doc) :
    List Doc → Option Doc × List Doc
  | [] => (none, [])
  | d :: ds =>
      if p d then (some (upd d), upd d :: ds)
      else
        let r := find_one_and_update p upd ds
        (r.1, d :: r.2)

/-- Mongo `delete_one(filter)` on a list store: remove the first matching
document, returning `deleted_count` and the new store. -/
def delete_one (p : Doc → Bool) : List Doc → Nat × List Doc
  | [] => (0, [])
  | d :: ds =>
      if p d then (1, ds)
      else
        let r := delete_one p ds
        (r.1, d :: r.2)

/-- `edit_document` (lines 185–194 of src/main.py): hash the supplied secret
(`hashFn` stands for the external SHA-256 `hash_code`), then atomically
find-one-and-update on `{edit_code, unique_name}`, `$set`-ting the fields of
`note_data` (title, content, hashed edit_code, and the path's unique_name). -/
def edit_document (hashFn : List Nat → List Nat) (store : List Doc)
    (name title content edit_code : List Nat) : Option Doc × List Doc :=
  let h := hashFn edit_code
  find_one_and_update (editMatch h name)
    (fun d => { d with title := title, content := content,
                       edit_code := h, unique_name := name }) store

/-- `delete_document` (lines 196–205 of src/main.py). -/
def delete_document (hashFn : List Nat → List Nat) (store : List Doc)
    (name edit_code : List Nat) : Option (List (List Nat × JVal)) × List Doc :=
  let h := hashFn edit_code
  let r := delete_one (editMatch h name) store
  (if r.1 > 0 then some [(str "deleted", .b true), (str "deleted_count", .n r.1)]
   else none, r.2)

/-- The shared 400 body of edit/delete failures (lines 351 and 358):
`{"error": "invalid edit code or note not found"}`. -/
def authErrBody : Body :=
  .err [(str "error", .s (str "invalid edit code or note not found"))]

/-- The 400 moderation-rejection body of `create_note` (line 337). -/
def moderationErrBody : Body :=
  .err [(str "error", .s (str "contains prohibited or unsafe content."))]

/-- `GET /notes/{unique_name}` (`get_note`, lines 321–327 of src/main.py):
exact `find_one({"unique_name": unique_name})`, 404 on a miss. -/
def get_note (store : List Doc) (unique_name : List Nat) : Response :=
  match store.find? (fun d => d.unique_name == unique_name) with
  | some d => ⟨200, .entry (serialize_doc d)⟩
  | none => ⟨404, .err [(str "error", .s (str "not found"))]⟩

/-- `POST /notes/` (`create_note`, lines 329–340, with `create_document`,
lines 178–183).  `blocked` is the verdict of the external moderation gate
`is_illegal_content` on `f"{title} {content}"`; `hashFn` the external
SHA-256; `word1`, `word2` the random word draws; `oid` the store-assigned id.
On a block, a 400 is returned and nothing is written; otherwise the document
is inserted with the generated slug and hashed secret and echoed back. -/
def create_note (hashFn : List Nat → List Nat) (blocked : Bool)
    (store : List Doc) (word1 word2 : List Nat) (oid : Nat)
    (title content edit_code : List Nat) : Response × List Doc :=
  if blocked then (⟨400, moderationErrBody⟩, store)
  else
    let un := generate_unique_name store word1 word2
    let d : Doc := ⟨oid, title, content, hashFn edit_code, un, none⟩
    (⟨201, .entry (serialize_doc d)⟩, store ++ [d])

/-- `PATCH /notes/{unique_name}` (`edit_note`, lines 342–352).  A moderation
block yields the 400 body of line 348 (which carries an extra `"type"` key);
otherwise `edit_document` decides between 200 with the updated entry and the
indistinguishable 400 `authErrBody`. -/
def edit_note (hashFn : List Nat → List Nat) (blocked : Bool)
    (store : List Doc) (unique_name title content edit_code : List Nat) :
    Response × List Doc :=
  if blocked then
    (⟨400, .err [(str "error", .s (str "contains prohibited or unsafe content.")),
                 (str "type", .s [])]⟩, store)
  else
    let r := edit_document hashFn store unique_name title content edit_code
    match r.1 with
    | some d => (⟨200, .entry (serialize_doc d)⟩, r.2)
    | none => (⟨400, authErrBody⟩, r.2)

/-- `DELETE /notes/{unique_name}` (`delete_note`, lines 354–359). -/
def delete_note (hashFn : List Nat → List Nat) (store : List Doc)
    (unique_name edit_code : List Nat) : Response × List Doc :=
  let r := delete_document hashFn store unique_name edit_code
  match r.1 with
  | some payload => (⟨200, .deleted payload⟩, r.2)
  | none => (⟨400, authErrBody⟩, r.2)

/-- `GET /notes/` (`list_notes`, lines 230–319).  The Mongo query built from
the parameters (`$text` with regex fallback, type and date filters) and the
sort are executed by the external store; they are modelled as the selection
predicate `flt` applied in stored order.  `skip`/`limit` paginate, and every
returned element is `serialize_doc` of a selected document (line 310). -/
def list_notes (store : List Doc) (flt : Doc → Bool) (skip limit : Nat) :
    Response :=
  let docs := ((store.filter flt).drop skip).take limit
  ⟨200, .listing
    [(str "total_count", .n (store.filter flt).length),
     (str "limit", .n limit),
     (str "skip", .n skip),
     (str "returned_count", .n docs.length)]
    (docs.map serialize_doc)⟩

/-- Is `c` a C0 control codepoint, the class `[\x00-\x1F]` of line 128. -/
def isC0 (c : Nat) : Bool := c ≤ 31

/-- The codepoints matched by Python's `\s` (and stripped by `str.strip()`):
ASCII whitespace, the C0 separators 0x1C–0x1F, NEL, NBSP, and the Unicode
space separators. -/
def pySpaceList : List Nat :=
  [9, 10, 11, 12, 13, 28, 29, 30, 31, 32, 133, 160, 5760,
   8192, 8193, 8194, 8195, 8196, 8197, 8198, 8199, 8200, 8201, 8202,
   8232, 8233, 8239, 8287, 12288]

/-- Is `c` a Python whitespace codepoint. -/
def isPySpace (c : Nat) : Bool := pySpaceList.contains c

/-- `re.sub(r'X+', ' ', s)` for a character class `p`: every maximal run of
`p`-codepoints is replaced by a single space (32).  `inRun` records whether
the previous codepoint belonged to a run. -/
def collapseAux (p : Nat → Bool) : Bool → List Nat → List Nat
  | _, [] => []
  | inRun, c :: cs =>
      if p c then
        (if inRun then [] else [32]) ++ collapseAux p true cs
      else c :: collapseAux p false cs

/-- Replace each maximal run of `p`-codepoints by one space. -/
def replaceRuns (p : Nat → Bool) (l : List Nat) : List Nat := collapseAux p false l

/-- Python `str.strip()`: drop leading and trailing whitespace. -/
def stripWs (l : List Nat) : List Nat :=
  ((l.dropWhile isPySpace).reverse.dropWhile isPySpace).reverse

/-- `sanitize_search_query` (lines 113–134 of src/main.py) on a non-None
input.  `nfkc` stands for the external `unicodedata.normalize("NFKC", ·)`;
then C0 runs are replaced by spaces, whitespace is collapsed and stripped,
and the result is truncated to `max_length = 500` codepoints. -/
def sanitize_search_query (nfkc : List Nat → List Nat) (q : List Nat) : List Nat :=
  let s := nfkc q
  let s := replaceRuns isC0 s
  let s := stripWs (replaceRuns isPySpace s)
  s.take 500

/-- The base (or a candidate) is taken in a store when some stored document's
unique name coincides with it case-insensitively. -/
def nameTaken (store : List Doc) (s : List Nat) : Prop :=
  ∃ d ∈ store, lowerStr d.unique_name = lowerStr s

lemma decAux_eq_digits : ∀ fuel n, n ≤ fuel →
    decAux fuel n = (Nat.digits 10 n).map (fun d => d + 48) := by
  intro fuel
  induction fuel with
  | zero =>
      intro n hn
      have : n = 0 := by omega
      subst this
      simp [decAux]
  | succ fuel ih =>
      intro n hn
      by_cases h : n = 0
      · subst h; simp [decAux]
      · have h10 : Nat.digits 10 n = n % 10 :: Nat.digits 10 (n / 10) :=
          Nat.digits_def' (by norm_num) (Nat.pos_of_ne_zero h)
        have hdiv : n / 10 ≤ fuel := by
          have : n / 10 < n := Nat.div_lt_self (Nat.pos_of_ne_zero h) (by norm_num)
          omega
        simp [decAux, h, h10, ih _ hdiv]

lemma natDecimal_eq (n : Nat) : natDecimal n =
    if n = 0 then [48] else ((Nat.digits 10 n).map (fun d => d + 48)).reverse := by
  by_cases h : n = 0
  · simp [natDecimal, h]
  · simp [natDecimal, h, decAux_eq_digits n n le_rfl]

lemma natDecimal_ne_nil (n : Nat) : natDecimal n ≠ [] := by
  rw [natDecimal_eq]
  by_cases h : n = 0
  · simp [h]
  · simp [h, Nat.digits_ne_nil_iff_ne_zero]

lemma mem_natDecimal {c n : Nat} (hc : c ∈ natDecimal n) : 48 ≤ c ∧ c ≤ 57 := by
  rw [natDecimal_eq] at hc
  by_cases h : n = 0
  · simp [h] at hc; omega
  · simp [h] at hc
    obtain ⟨d, hd, rfl⟩ := hc
    have := Nat.digits_lt_base (by norm_num) hd
    omega

lemma natDecimal_inj {a b : Nat} (h : natDecimal a = natDecimal b) : a = b := by
  rw [natDecimal_eq, natDecimal_eq] at h
  by_cases ha : a = 0 <;> by_cases hb : b = 0
  · omega
  · exfalso
    simp [ha, hb] at h
    have hb' : Nat.digits 10 b = [0] := by
      have := congrArg List.reverse h
      simp at this
      cases h10 : Nat.digits 10 b with
      | nil => simp [h10] at this
      | cons d ds =>
          rw [h10] at this
          cases ds with
          | nil =>
              simp at this
              simp [show d = 0 by omega]
          | cons e es => simp at this
    have : b = Nat.ofDigits 10 (Nat.digits 10 b) := (Nat.ofDigits_digits 10 b).symm
    rw [hb'] at this
    simp [Nat.ofDigits] at this
    exact hb this
  · exfalso
    simp [ha, hb] at h
    have ha' : Nat.digits 10 a = [0] := by
      have := congrArg List.reverse h
      simp at this
      cases h10 : Nat.digits 10 a with
      | nil => simp [h10] at this
      | cons d ds =>
          rw [h10] at this
          cases ds with
          | nil =>
              simp at this
              simp [show d = 0 by omega]
          | cons e es => simp at this
    have : a = Nat.ofDigits 10 (Nat.digits 10 a) := (Nat.ofDigits_digits 10 a).symm
    rw [ha'] at this
    simp [Nat.ofDigits] at this
    exact ha this
  · simp [ha, hb] at h
    have hmap : (Nat.digits 10 a).map (fun d => d + 48) =
        (Nat.digits 10 b).map (fun d => d + 48) := by
      have := congrArg List.reverse h
      simpa using this
    have hdig : Nat.digits 10 a = Nat.digits 10 b := by
      have hinj : Function.Injective (fun d : Nat => d + 48) := fun x y hxy => by
        simpa using hxy
      exact List.map_injective_iff.mpr hinj hmap
    calc a = Nat.ofDigits 10 (Nat.digits 10 a) := (Nat.ofDigits_digits 10 a).symm
    _ = Nat.ofDigits 10 (Nat.digits 10 b) := by rw [hdig]
    _ = b := Nat.ofDigits_digits 10 b

lemma charLower_of_lt {c : Nat} (h : c < 65) : charLower c = c := by
  simp [charLower]; omega

lemma lowerStr_append (a b : List Nat) : lowerStr (a ++ b) = lowerStr a ++ lowerStr b :=
  List.map_append charLower a b

lemma lowerStr_natDecimal (n : Nat) : lowerStr (natDecimal n) = natDecimal n := by
  unfold lowerStr
  rw [show (natDecimal n).map charLower = (natDecimal n).map id from
    List.map_congr_left fun c hc => charLower_of_lt (by have := mem_natDecimal hc; omega)]
  simp

lemma lowerStr_candidate (base : List Nat) (k : Nat) :
    lowerStr (candidate base k) = candidate (lowerStr base) k := by
  by_cases h : k = 0
  · simp [candidate, h]
  · simp only [candidate, h, if_false]
    rw [lowerStr_append]
    congr 1
    show lowerStr (45 :: natDecimal k) = 45 :: natDecimal k
    unfold lowerStr
    rw [List.map_cons, charLower_of_lt (show (45:Nat) < 65 by norm_num),
      show (natDecimal k).map charLower = natDecimal k from lowerStr_natDecimal k]

lemma candidate_inj {base : List Nat} {i j : Nat}
    (h : candidate base i = candidate base j) : i = j := by
  by_cases hi : i = 0 <;> by_cases hj : j = 0
  · omega
  · exfalso
    simp [candidate, hi, hj] at h
  · exfalso
    simp [candidate, hi, hj] at h
  · simp [candidate, hi, hj] at h
    exact natDecimal_inj h

lemma candidate_lower_inj {base : List Nat} {i j : Nat}
    (h : lowerStr (candidate base i) = lowerStr (candidate base j)) : i = j := by
  rw [lowerStr_candidate, lowerStr_candidate] at h
  exact candidate_inj h

lemma taken_iff (ex : List (List Nat)) (s : List Nat) :
    taken ex s = true ↔ lowerStr s ∈ ex.map lowerStr := by
  simp [taken]

/-- Pigeonhole: among the first `length + 1` candidates, at least one is not
in the finite observed name set. -/
lemma exists_free (ex : List (List Nat)) (base : List Nat) :
    ∃ k, k ≤ ex.length ∧ taken ex (candidate base k) = false := by
  by_contra hcon
  push_neg at hcon
  have htaken : ∀ k, k ≤ ex.length →
      lowerStr (candidate base k) ∈ ex.map lowerStr := by
    intro k hk
    rw [← taken_iff]
    cases h : taken ex (candidate base k) with
    | false => exact absurd h (hcon k hk)
    | true => rfl
  have hmaps : ∀ k ∈ Finset.range (ex.length + 1),
      lowerStr (candidate base k) ∈ (ex.map lowerStr).toFinset := by
    intro k hk
    rw [List.mem_toFinset]
    exact htaken k (by simpa using Nat.lt_succ_iff.mp (Finset.mem_range.mp hk))
  have hinj : Set.InjOn (fun k => lowerStr (candidate base k))
      (Finset.range (ex.length + 1)) := by
    intro i _ j _ hij
    exact candidate_lower_inj hij
  have hcard := Finset.card_le_card_of_injOn _ hmaps hinj
  have hcard2 : ((ex.map lowerStr).toFinset).card ≤ ex.length := by
    have := (ex.map lowerStr).toFinset_card_le
    simpa using this
  simp at hcard
  omega

/-- The collision loop, run with enough fuel to reach a free candidate,
returns the first free candidate at or after its starting counter. -/
lemma genLoop_spec (ex : List (List Nat)) (base : List Nat) :
    ∀ fuel k, (∃ j, k ≤ j ∧ j < k + fuel ∧ taken ex (candidate base j) = false) →
    ∃ m, genLoop ex base fuel k = candidate base m ∧ k ≤ m ∧
      taken ex (candidate base m) = false ∧
      ∀ j, k ≤ j → j < m → taken ex (candidate base j) = true := by
  intro fuel
  induction fuel with
  | zero =>
      rintro k ⟨j, h1, h2, _⟩
      omega
  | succ fuel ih =>
      rintro k ⟨j, hj1, hj2, hj3⟩
      by_cases h : taken ex (candidate base k) = true
      · have hjk : k + 1 ≤ j := by
          rcases Nat.eq_or_lt_of_le hj1 with heq | hlt
          · exact absurd hj3 (by rw [heq] at h; simp [h])
          · omega
        obtain ⟨m, hm1, hm2, hm3, hm4⟩ := ih (k + 1) ⟨j, hjk, by omega, hj3⟩
        refine ⟨m, ?_, by omega, hm3, ?_⟩
        · simpa [genLoop, h] using hm1
        · intro j' h1 h2
          by_cases hj' : j' = k
          · rw [hj']; exact h
          · exact hm4 j' (by omega) h2
      · have h' : taken ex (candidate base k) = false := by
          cases hb : taken ex (candidate base k) with
          | false => rfl
          | true => exact absurd hb h
        refine ⟨k, ?_, le_refl k, h', fun j' h1 h2 => absurd h2 (by omega)⟩
        simp [genLoop, h']

/-- Any name that case-insensitively equals a candidate matches the
collision-check regex. -/
lemma matchesPattern_of_lower (base name : List Nat) (k : Nat)
    (h : lowerStr name = lowerStr (candidate base k)) :
    matchesPattern base name = true := by
  rw [lowerStr_candidate] at h
  by_cases hk : k = 0
  · subst hk
    simp only [candidate, if_pos rfl] at h
    simp [matchesPattern, h]
  · simp only [candidate, hk, if_false] at h
    have hpre : (lowerStr base).isPrefixOf (lowerStr name) = true := by
      rw [h]
      induction lowerStr base with
      | nil => simp [List.isPrefixOf]
      | cons c cs ih => simp [List.isPrefixOf, ih]
    have hdrop : (lowerStr name).drop (lowerStr base).length = 45 :: natDecimal k := by
      rw [h]
      exact List.drop_left _ _
    have hne : (natDecimal k).isEmpty = false := by
      cases hnd : natDecimal k with
      | nil => exact absurd hnd (natDecimal_ne_nil k)
      | cons c cs => rfl
    have hall : (natDecimal k).all isDigitCp = true := by
      rw [List.all_eq_true]
      intro c hc
      have := mem_natDecimal hc
      simp [isDigitCp]
      omega
    simp [matchesPattern, hpre, hdrop, hne, hall]

/-- Bridge between the loop's membership test over the `distinct` query result
and case-insensitive presence in the store. -/
lemma taken_existing_iff (store : List Doc) (base : List Nat) (k : Nat) :
    taken (existing_names store base) (candidate base k) = true ↔
      nameTaken store (candidate base k) := by
  rw [taken_iff]
  constructor
  · intro hmem
    rw [List.mem_map] at hmem
    obtain ⟨name, hn, he⟩ := hmem
    rw [existing_names, List.mem_dedup, List.mem_filter] at hn
    obtain ⟨hn1, _⟩ := hn
    rw [List.mem_map] at hn1
    obtain ⟨d, hd, rfl⟩ := hn1
    exact ⟨d, hd, he⟩
  · rintro ⟨d, hd, he⟩
    rw [List.mem_map]
    refine ⟨d.unique_name, ?_, he⟩
    rw [existing_names, List.mem_dedup, List.mem_filter]
    exact ⟨List.mem_map_of_mem _ hd, matchesPattern_of_lower base d.unique_name k he⟩

/-- Full behaviour of `generate_unique_name`: it returns the first candidate
(in counter order) that is free in the snapshot, and finds it within
`length + 1` attempts. -/
lemma generate_spec (store : List Doc) (w1 w2 : List Nat) :
    ∃ m, m ≤ (existing_names store (base_slug w1 w2)).length ∧
      generate_unique_name store w1 w2 = candidate (base_slug w1 w2) m ∧
      taken (existing_names store (base_slug w1 w2)) (candidate (base_slug w1 w2) m) = false ∧
      ¬ nameTaken store (candidate (base_slug w1 w2) m) ∧
      ∀ j, j < m → nameTaken store (candidate (base_slug w1 w2) j) := by
  set base := base_slug w1 w2 with hbase
  set ex := existing_names store base with hex
  obtain ⟨kf, hkf, hfree⟩ := exists_free ex base
  obtain ⟨m, hm1, hm2, hm3, hm4⟩ :=
    genLoop_spec ex base (ex.length + 1) 0 ⟨kf, by omega, by omega, hfree⟩
  have hmle : m ≤ ex.length := by
    by_contra hgt
    have := hm4 kf (by omega) (by omega)
    rw [this] at hfree
    exact Bool.noConfusion hfree
  refine ⟨m, hmle, hm1, hm3, ?_, ?_⟩
  · intro hcon
    have := (taken_existing_iff store base m).mpr hcon
    rw [this] at hm3
    exact Bool.noConfusion hm3
  · intro j hj
    exact (taken_existing_iff store base j).mp (hm4 j (Nat.zero_le j) hj)

lemma candidate_zero (base : List Nat) : candidate base 0 = base := rfl

/-- When the base is free (case-insensitively), the loop exits at once. -/
lemma generate_of_base_free (store : List Doc) (w1 w2 : List Nat)
    (h : ¬ nameTaken store (base_slug w1 w2)) :
    generate_unique_name store w1 w2 = base_slug w1 w2 := by
  obtain ⟨m, _, heq, _, hfree, hmin⟩ := generate_spec store w1 w2
  rcases Nat.eq_zero_or_pos m with hm | hm
  · rw [heq, hm, candidate_zero]
  · exact absurd (candidate_zero (base_slug w1 w2) ▸ hmin 0 hm) h

/-- The six keys of a serialized entry. -/
def sixKeys : List (List Nat) :=
  [str "id", str "title", str "content", str "created_at",
   str "unique_name", str "type"]

lemma serialize_doc_keys (d : Doc) : (serialize_doc d).map Prod.fst = sixKeys := rfl

lemma find_one_and_update_none {p : Doc → Bool} {upd : Doc → Doc}
    {store : List Doc} (h : ∀ d ∈ store, p d = false) :
    find_one_and_update p upd store = (none, store) := by
  induction store with
  | nil => rfl
  | cons d ds ih =>
      have hd := h d (List.mem_cons_self d ds)
      have hds := ih fun x hx => h x (List.mem_cons_of_mem d hx)
      simp [find_one_and_update, hd, hds]

lemma find_one_and_update_some {p : Doc → Bool} {upd : Doc → Doc}
    {store : List Doc} {d' : Doc}
    (h : (find_one_and_update p upd store).1 = some d') :
    ∃ old ∈ store, p old = true ∧ d' = upd old := by
  induction store with
  | nil => exact absurd h (by simp [find_one_and_update])
  | cons d ds ih =>
      by_cases hp : p d = true
      · simp [find_one_and_update, hp] at h
        exact ⟨d, List.mem_cons_self d ds, hp, h.symm⟩
      · have hp' : p d = false := by
          cases hb : p d with
          | false => rfl
          | true => exact absurd hb hp
        simp only [find_one_and_update, hp', Bool.false_eq_true, if_false] at h
        obtain ⟨old, ho, hpo, he⟩ := ih h
        exact ⟨old, List.mem_cons_of_mem d ho, hpo, he⟩

lemma delete_one_of_none {p : Doc → Bool} {store : List Doc}
    (h : ∀ d ∈ store, p d = false) : delete_one p store = (0, store) := by
  induction store with
  | nil => rfl
  | cons d ds ih =>
      have hd := h d (List.mem_cons_self d ds)
      have hds := ih fun x hx => h x (List.mem_cons_of_mem d hx)
      simp [delete_one, hd, hds]

lemma delete_one_of_pos {p : Doc → Bool} {store : List Doc}
    (h : 0 < store.countP p) :
    (delete_one p store).1 = 1 ∧
      (delete_one p store).2.countP p = store.countP p - 1 := by
  induction store with
  | nil => simp at h
  | cons d ds ih =>
      by_cases hp : p d = true
      · simp [delete_one, hp, List.countP_cons, hp]
      · have hp' : p d = false := by
          cases hb : p d with
          | false => rfl
          | true => exact absurd hb hp
        have hcount : (d :: ds).countP p = ds.countP p := by
          simp [List.countP_cons, hp']
        rw [hcount] at h
        obtain ⟨h1, h2⟩ := ih h
        constructor
        · simpa [delete_one, hp'] using h1
        · simpa [delete_one, hp', List.countP_cons] using h2

lemma delete_note_of_no_match (hashFn : List Nat → List Nat) (store : List Doc)
    (name ec : List Nat) (h : store.countP (editMatch (hashFn ec) name) = 0) :
    delete_note hashFn store name ec = (⟨400, authErrBody⟩, store) := by
  have hall : ∀ d ∈ store, editMatch (hashFn ec) name d = false := by
    intro d hd
    cases hb : editMatch (hashFn ec) name d with
    | false => rfl
    | true => exact absurd h (by
        have : 0 < store.countP (editMatch (hashFn ec) name) :=
          List.countP_pos_iff.mpr ⟨d, hd, hb⟩
        omega)
  simp [delete_note, delete_document, delete_one_of_none hall]

end Kindled

/-- C1: if the derived base slug is already taken case-insensitively,
`generate_unique_name` returns the base with the smallest positive integer
suffix `-k` whose result is not taken; when the stored names are exactly
`base, base-1, …, base-(N-1)`, it returns `base-N`; and when the base is
free it returns the base itself. -/
theorem c1_smallest_free_suffix (store : List Kindled.Doc) (w1 w2 : List Nat) :
    (¬ Kindled.nameTaken store (Kindled.base_slug w1 w2) →
      Kindled.generate_unique_name store w1 w2 = Kindled.base_slug w1 w2) ∧
    (Kindled.nameTaken store (Kindled.base_slug w1 w2) →
      ∃ k, 1 ≤ k ∧
        Kindled.generate_unique_name store w1 w2 =
          Kindled.candidate (Kindled.base_slug w1 w2) k ∧
        ¬ Kindled.nameTaken store (Kindled.candidate (Kindled.base_slug w1 w2) k) ∧
        ∀ j, 1 ≤ j → j < k →
          Kindled.nameTaken store (Kindled.candidate (Kindled.base_slug w1 w2) j)) ∧
    (∀ N, store.map Kindled.Doc.unique_name =
        (List.range N).map (Kindled.candidate (Kindled.base_slug w1 w2)) →
      Kindled.generate_unique_name store w1 w2 =
        Kindled.candidate (Kindled.base_slug w1 w2) N) := by
  refine ⟨Kindled.generate_of_base_free store w1 w2, ?_, ?_⟩
  · intro htaken
    obtain ⟨m, _, heq, _, hfree, hmin⟩ := Kindled.generate_spec store w1 w2
    have hm1 : 1 ≤ m := by
      rcases Nat.eq_zero_or_pos m with hm | hm
      · exact absurd (hm ▸ Kindled.candidate_zero (Kindled.base_slug w1 w2) ▸ htaken)
          (hm ▸ hfree)
      · exact hm
    exact ⟨m, hm1, heq, hfree, fun j _ hj => hmin j hj⟩
  · intro N hstore
    obtain ⟨m, _, heq, _, hfree, hmin⟩ := Kindled.generate_spec store w1 w2
    have htk : ∀ j, j < N →
        Kindled.nameTaken store (Kindled.candidate (Kindled.base_slug w1 w2) j) := by
      intro j hj
      have hmem : Kindled.candidate (Kindled.base_slug w1 w2) j ∈
          store.map Kindled.Doc.unique_name := by
        rw [hstore, List.mem_map]
        exact ⟨j, List.mem_range.mpr hj, rfl⟩
      rw [List.mem_map] at hmem
      obtain ⟨d, hd, hdn⟩ := hmem
      exact ⟨d, hd, by rw [hdn]⟩
    have hfreeN : ¬ Kindled.nameTaken store
        (Kindled.candidate (Kindled.base_slug w1 w2) N) := by
      rintro ⟨d, hd, he⟩
      have hmem : d.unique_name ∈ store.map Kindled.Doc.unique_name :=
        List.mem_map_of_mem _ hd
      rw [hstore, List.mem_map] at hmem
      obtain ⟨j, hj, hdn⟩ := hmem
      rw [← hdn] at he
      have := Kindled.candidate_lower_inj he
      rw [this] at hj
      exact absurd (List.mem_range.mp hj) (lt_irrefl N)
    rw [heq]
    congr 1
    by_contra hne
    rcases Nat.lt_or_ge m N with hlt | hge
    · exact hfree (htk m hlt)
    · exact hfreeN (hmin N (by omega))

/-- C1 witness: with `hope-star` and `hope-star-1` stored, the generator on
the words `hope`, `star` returns `hope-star-2`. -/
theorem c1_smallest_free_suffix_witness :
    Kindled.generate_unique_name
      [⟨1, [], [], [], Kindled.str "hope-star", none⟩,
       ⟨2, [], [], [], Kindled.str "hope-star-1", none⟩]
      (Kindled.str "hope") (Kindled.str "star") =
    Kindled.candidate (Kindled.base_slug (Kindled.str "hope") (Kindled.str "star")) 2 :=
  (c1_smallest_free_suffix _ _ _).2.2 2 (by decide)

/-- C9: the suffix loop always terminates with a name free in the observed
snapshot, reached within `snapshot size + 1` attempts (counters `0 … size`). -/
theorem c9_bounded_termination (store : List Kindled.Doc) (w1 w2 : List Nat) :
    ∃ k, k ≤ (Kindled.existing_names store (Kindled.base_slug w1 w2)).length ∧
      Kindled.generate_unique_name store w1 w2 =
        Kindled.candidate (Kindled.base_slug w1 w2) k ∧
      Kindled.taken (Kindled.existing_names store (Kindled.base_slug w1 w2))
        (Kindled.generate_unique_name store w1 w2) = false := by
  obtain ⟨m, hle, heq, hfree, _, _⟩ := Kindled.generate_spec store w1 w2
  exact ⟨m, hle, heq, by rw [heq]; exact hfree⟩

/-- C2 counterexample: the missing comma in `BIBLE_WORDS` fuses
`"wisdom"` and `"abel"` into the vocabulary entry `"wisdomabel"`, and the
generator performs no truncation, so drawing that word twice on an empty
collection yields a 21-character slug, above the claimed 20-character bound. -/
theorem c2_length_counterexample :
    Kindled.str "wisdomabel" ∈ Kindled.BIBLE_WORDS ∧
    20 < (Kindled.generate_unique_name []
      (Kindled.str "wisdomabel") (Kindled.str "wisdomabel")).length := by
  decide

/-- C2 amended: `generate_unique_name` never truncates and enforces no
maximum length: its result is always exactly the base slug, or the base slug
followed by a numeric suffix, with the full base as a prefix. -/
theorem c2_no_truncation (store : List Kindled.Doc) (w1 w2 : List Nat) :
    ∃ k, Kindled.generate_unique_name store w1 w2 =
        Kindled.candidate (Kindled.base_slug w1 w2) k ∧
      ∃ t, Kindled.base_slug w1 w2 ++ t = Kindled.generate_unique_name store w1 w2 := by
  obtain ⟨m, _, heq, _, _, _⟩ := Kindled.generate_spec store w1 w2
  refine ⟨m, heq, ?_⟩
  rcases Nat.eq_zero_or_pos m with hm | hm
  · exact ⟨[], by rw [heq, hm, Kindled.candidate_zero, List.append_nil]⟩
  · refine ⟨45 :: Kindled.natDecimal m, ?_⟩
    rw [heq]
    simp [Kindled.candidate, Nat.pos_iff_ne_zero.mp hm]

/-- C3: editing an existing unique_name with a secret whose hash matches no
stored document yields exactly the same 400 response, body included, as
editing a unique_name that exists on no document at all: the two failures
are indistinguishable to the caller. -/
theorem c3_auth_indistinguishable (hashFn : List Nat → List Nat)
    (s1 s2 : List Kindled.Doc) (n1 n2 t1 c1 ec1 t2 c2 ec2 : List Nat)
    (_hx : ∃ d ∈ s1, d.unique_name = n1)
    (hwrong : ∀ d ∈ s1, ¬(d.edit_code = hashFn ec1 ∧ d.unique_name = n1))
    (hmiss : ∀ d ∈ s2, d.unique_name ≠ n2) :
    (Kindled.edit_note hashFn false s1 n1 t1 c1 ec1).1 =
      (Kindled.edit_note hashFn false s2 n2 t2 c2 ec2).1 ∧
    (Kindled.edit_note hashFn false s1 n1 t1 c1 ec1).1 =
      ⟨400, Kindled.authErrBody⟩ := by
  have h1 : ∀ d ∈ s1, Kindled.editMatch (hashFn ec1) n1 d = false := by
    intro d hd
    have := hwrong d hd
    simp [Kindled.editMatch]
    intro hc hn
    exact absurd ⟨hc, hn⟩ this
  have h2 : ∀ d ∈ s2, Kindled.editMatch (hashFn ec2) n2 d = false := by
    intro d hd
    simp [Kindled.editMatch]
    intro _
    exact hmiss d hd
  have e1 := @Kindled.find_one_and_update_none _ (fun d =>
    { d with title := t1, content := c1, edit_code := hashFn ec1,
             unique_name := n1 }) _ h1
  have e2 := @Kindled.find_one_and_update_none _ (fun d =>
    { d with title := t2, content := c2, edit_code := hashFn ec2,
             unique_name := n2 }) _ h2
  constructor
  · simp [Kindled.edit_note, Kindled.edit_document, e1, e2]
  · simp [Kindled.edit_note, Kindled.edit_document, e1]

/-- C3 witness: a one-document store edited with the wrong secret, against an
empty store edited at a missing name. -/
theorem c3_auth_indistinguishable_witness :
    (Kindled.edit_note (fun s => s) false
        [⟨1, Kindled.str "t", Kindled.str "c", Kindled.str "secret1",
          Kindled.str "hope-star", none⟩]
        (Kindled.str "hope-star") (Kindled.str "t2") (Kindled.str "c2")
        (Kindled.str "wrong")).1 =
      (Kindled.edit_note (fun s => s) false []
        (Kindled.str "gone") (Kindled.str "t2") (Kindled.str "c2")
        (Kindled.str "wrong")).1 ∧
    (Kindled.edit_note (fun s => s) false
        [⟨1, Kindled.str "t", Kindled.str "c", Kindled.str "secret1",
          Kindled.str "hope-star", none⟩]
        (Kindled.str "hope-star") (Kindled.str "t2") (Kindled.str "c2")
        (Kindled.str "wrong")).1 = ⟨400, Kindled.authErrBody⟩ :=
  c3_auth_indistinguishable (fun s => s) _ _ _ _ _ _ _ _ _ _
    (by decide) (by decide) (by decide)

/-- C4: serialized entries consist of exactly the keys id, title, content,
created_at, unique_name, type — never `edit_code` — and every entry in a
create, get, list, or edit response is such a serialization. -/
theorem c4_no_hash_exposure :
    (∀ d : Kindled.Doc,
      (Kindled.serialize_doc d).map Prod.fst = Kindled.sixKeys ∧
      Kindled.str "edit_code" ∉ (Kindled.serialize_doc d).map Prod.fst) ∧
    (∀ (hashFn : List Nat → List Nat) (blocked : Bool)
        (store : List Kindled.Doc) (w1 w2 : List Nat) (oid : Nat)
        (name t c ec : List Nat) (flt : Kindled.Doc → Bool) (skip limit : Nat),
      (∀ e ∈ Kindled.entriesOf (Kindled.get_note store name),
        e.map Prod.fst = Kindled.sixKeys) ∧
      (∀ e ∈ Kindled.entriesOf
          (Kindled.create_note hashFn blocked store w1 w2 oid t c ec).1,
        e.map Prod.fst = Kindled.sixKeys) ∧
      (∀ e ∈ Kindled.entriesOf (Kindled.list_notes store flt skip limit),
        e.map Prod.fst = Kindled.sixKeys) ∧
      (∀ e ∈ Kindled.entriesOf
          (Kindled.edit_note hashFn blocked store name t c ec).1,
        e.map Prod.fst = Kindled.sixKeys)) := by
  have hkeys : ∀ d : Kindled.Doc,
      (Kindled.serialize_doc d).map Prod.fst = Kindled.sixKeys :=
    Kindled.serialize_doc_keys
  refine ⟨fun d => ⟨hkeys d, ?_⟩, ?_⟩
  · rw [hkeys d]
    decide
  · intro hashFn blocked store w1 w2 oid name t c ec flt skip limit
    refine ⟨?_, ?_, ?_, ?_⟩
    · intro e he
      unfold Kindled.get_note at he
      cases hf : store.find? (fun d => d.unique_name == name) with
      | some d =>
          rw [hf] at he
          simp [Kindled.entriesOf] at he
          rw [he]
          exact hkeys d
      | none =>
          rw [hf] at he
          simp [Kindled.entriesOf] at he
    · intro e he
      unfold Kindled.create_note at he
      cases blocked with
      | true => simp [Kindled.entriesOf, Kindled.moderationErrBody] at he
      | false =>
          simp [Kindled.entriesOf] at he
          rw [he]
          exact hkeys _
    · intro e he
      simp only [Kindled.list_notes, Kindled.entriesOf] at he
      rw [List.mem_map] at he
      obtain ⟨d, _, he⟩ := he
      rw [← he]
      exact hkeys d
    · intro e he
      unfold Kindled.edit_note at he
      cases blocked with
      | true => simp [Kindled.entriesOf] at he
      | false =>
          simp only [Bool.false_eq_true, if_false] at he
          cases hr : (Kindled.edit_document hashFn store name t c ec).1 with
          | some d =>
              rw [hr] at he
              simp [Kindled.entriesOf] at he
              rw [he]
              exact hkeys d
          | none =>
              rw [hr] at he
              simp [Kindled.entriesOf, Kindled.authErrBody] at he

/-- C4 witness: the serialization of a concrete document carries exactly the
six public keys, and a concrete get response's entry does as well. -/
theorem c4_no_hash_exposure_witness :
    (Kindled.serialize_doc ⟨1, Kindled.str "t", Kindled.str "c",
        Kindled.str "h", Kindled.str "hope-star", none⟩).map Prod.fst =
      Kindled.sixKeys ∧
    ∀ e ∈ Kindled.entriesOf (Kindled.get_note
        [⟨1, Kindled.str "t", Kindled.str "c", Kindled.str "h",
          Kindled.str "hope-star", none⟩] (Kindled.str "hope-star")),
      e.map Prod.fst = Kindled.sixKeys :=
  ⟨(c4_no_hash_exposure.1 _).1,
   (c4_no_hash_exposure.2 (fun s => s) false
      [⟨1, Kindled.str "t", Kindled.str "c", Kindled.str "h",
        Kindled.str "hope-star", none⟩] [] [] 0
      (Kindled.str "hope-star") [] [] [] (fun _ => true) 0 0).1⟩

/-- C5: when the moderation gate blocks the title-plus-content text, create
returns a 400 error and writes nothing: the store is unchanged. -/
theorem c5_blocked_create_no_write (hashFn : List Nat → List Nat)
    (blocked : Bool) (store : List Kindled.Doc) (w1 w2 : List Nat) (oid : Nat)
    (t c ec : List Nat) (hb : blocked = true) :
    (Kindled.create_note hashFn blocked store w1 w2 oid t c ec).1 =
      ⟨400, Kindled.moderationErrBody⟩ ∧
    (Kindled.create_note hashFn blocked store w1 w2 oid t c ec).2 = store := by
  rw [hb]
  constructor <;> rfl

/-- C5 witness: a concrete blocked create on a one-document store. -/
theorem c5_blocked_create_no_write_witness :
    (Kindled.create_note (fun s => s) true
        [⟨1, Kindled.str "t", Kindled.str "c", Kindled.str "h",
          Kindled.str "hope-star", none⟩]
        (Kindled.str "hope") (Kindled.str "star") 2
        (Kindled.str "bad") (Kindled.str "bad") (Kindled.str "secret1")).1 =
      ⟨400, Kindled.moderationErrBody⟩ ∧
    (Kindled.create_note (fun s => s) true
        [⟨1, Kindled.str "t", Kindled.str "c", Kindled.str "h",
          Kindled.str "hope-star", none⟩]
        (Kindled.str "hope") (Kindled.str "star") 2
        (Kindled.str "bad") (Kindled.str "bad") (Kindled.str "secret1")).2 =
      [⟨1, Kindled.str "t", Kindled.str "c", Kindled.str "h",
        Kindled.str "hope-star", none⟩] :=
  c5_blocked_create_no_write (fun s => s) true _ _ _ _ _ _ _ rfl

/-- C6: a successful edit replaces title and content but the matched stored
document keeps its unique_name and its stored digest: the updated document
agrees with a previously stored one on both fields. -/
theorem c6_edit_preserves_name_and_hash (hashFn : List Nat → List Nat)
    (store : List Kindled.Doc) (name t c ec : List Nat) (d' : Kindled.Doc)
    (h : (Kindled.edit_document hashFn store name t c ec).1 = some d') :
    ∃ old ∈ store,
      old.unique_name = d'.unique_name ∧ old.edit_code = d'.edit_code ∧
      d'.title = t ∧ d'.content = c := by
  obtain ⟨old, hmem, hmatch, hupd⟩ := Kindled.find_one_and_update_some h
  simp [Kindled.editMatch] at hmatch
  refine ⟨old, hmem, ?_, ?_, ?_, ?_⟩ <;> simp [hupd, hmatch.1, hmatch.2]

/-- C6 witness: editing the single stored document with the matching secret
keeps its slug and digest. -/
theorem c6_edit_preserves_name_and_hash_witness :
    ∃ old ∈ [(⟨1, Kindled.str "t", Kindled.str "c", Kindled.str "secret1",
        Kindled.str "hope-star", none⟩ : Kindled.Doc)],
      old.unique_name =
        (⟨1, Kindled.str "t2", Kindled.str "c2", Kindled.str "secret1",
          Kindled.str "hope-star", none⟩ : Kindled.Doc).unique_name ∧
      old.edit_code =
        (⟨1, Kindled.str "t2", Kindled.str "c2", Kindled.str "secret1",
          Kindled.str "hope-star", none⟩ : Kindled.Doc).edit_code ∧
      (⟨1, Kindled.str "t2", Kindled.str "c2", Kindled.str "secret1",
        Kindled.str "hope-star", none⟩ : Kindled.Doc).title = Kindled.str "t2" ∧
      (⟨1, Kindled.str "t2", Kindled.str "c2", Kindled.str "secret1",
        Kindled.str "hope-star", none⟩ : Kindled.Doc).content = Kindled.str "c2" :=
  c6_edit_preserves_name_and_hash (fun s => s)
    [⟨1, Kindled.str "t", Kindled.str "c", Kindled.str "secret1",
      Kindled.str "hope-star", none⟩]
    (Kindled.str "hope-star") (Kindled.str "t2") (Kindled.str "c2")
    (Kindled.str "secret1") _ (by decide)

/-- C7: when exactly one stored document matches the name and hashed secret,
delete succeeds with `deleted_count` exactly 1; repeating the same delete on
the resulting store fails with the same 400 auth-or-not-found response; and a
delete matching nothing is reported with that identical response. -/
theorem c7_delete_at_most_one (hashFn : List Nat → List Nat)
    (store : List Kindled.Doc) (name ec : List Nat)
    (h : store.countP (Kindled.editMatch (hashFn ec) name) = 1) :
    (Kindled.delete_note hashFn store name ec).1 =
      ⟨200, .deleted [(Kindled.str "deleted", .b true),
                      (Kindled.str "deleted_count", .n 1)]⟩ ∧
    Kindled.delete_note hashFn (Kindled.delete_note hashFn store name ec).2
        name ec =
      (⟨400, Kindled.authErrBody⟩, (Kindled.delete_note hashFn store name ec).2) ∧
    ∀ store₂ : List Kindled.Doc,
      store₂.countP (Kindled.editMatch (hashFn ec) name) = 0 →
      Kindled.delete_note hashFn store₂ name ec =
        (⟨400, Kindled.authErrBody⟩, store₂) := by
  obtain ⟨hc1, hc0⟩ :=
    @Kindled.delete_one_of_pos (Kindled.editMatch (hashFn ec) name) store (by omega)
  have hcount0 :
      (Kindled.delete_one (Kindled.editMatch (hashFn ec) name) store).2.countP
        (Kindled.editMatch (hashFn ec) name) = 0 := by omega
  have hfst : (Kindled.delete_note hashFn store name ec).1 =
      ⟨200, .deleted [(Kindled.str "deleted", .b true),
                      (Kindled.str "deleted_count", .n 1)]⟩ := by
    simp [Kindled.delete_note, Kindled.delete_document, hc1]
  have hsnd : (Kindled.delete_note hashFn store name ec).2 =
      (Kindled.delete_one (Kindled.editMatch (hashFn ec) name) store).2 := by
    simp [Kindled.delete_note, Kindled.delete_document, hc1]
  refine ⟨hfst, ?_, fun store₂ h₂ =>
    Kindled.delete_note_of_no_match hashFn store₂ name ec h₂⟩
  rw [hsnd]
  exact Kindled.delete_note_of_no_match hashFn _ name ec hcount0

/-- C7 witness: deleting the only matching document from a two-document store. -/
theorem c7_delete_at_most_one_witness :
    (Kindled.delete_note (fun s => s)
        [⟨1, Kindled.str "t", Kindled.str "c", Kindled.str "secret1",
          Kindled.str "hope-star", none⟩,
         ⟨2, Kindled.str "u", Kindled.str "d", Kindled.str "secret2",
          Kindled.str "rock-star", none⟩]
        (Kindled.str "hope-star") (Kindled.str "secret1")).1 =
      ⟨200, .deleted [(Kindled.str "deleted", .b true),
                      (Kindled.str "deleted_count", .n 1)]⟩ :=
  (c7_delete_at_most_one (fun s => s)
    [⟨1, Kindled.str "t", Kindled.str "c", Kindled.str "secret1",
      Kindled.str "hope-star", none⟩,
     ⟨2, Kindled.str "u", Kindled.str "d", Kindled.str "secret2",
      Kindled.str "rock-star", none⟩]
    (Kindled.str "hope-star") (Kindled.str "secret1") (by decide)).1

/-- C10: lookup by slug is exact and case-sensitive: `get_note` answers 200
iff some stored document's unique_name equals the requested name character
for character; any name matching no stored document — in particular one
differing from a stored slug only in letter case — gets the fixed 404
not-found response. -/
theorem c10_lookup_case_sensitive (store : List Kindled.Doc) (name : List Nat) :
    ((Kindled.get_note store name).status = 200 ↔
      ∃ d ∈ store, d.unique_name = name) ∧
    ((∀ d ∈ store, d.unique_name ≠ name) →
      Kindled.get_note store name =
        ⟨404, .err [(Kindled.str "error", .s (Kindled.str "not found"))]⟩) := by
  constructor
  · constructor
    · intro hs
      cases hf : store.find? (fun d => d.unique_name == name) with
      | some d =>
          have := List.find?_some hf
          exact ⟨d, List.mem_of_find?_eq_some hf, by simpa using this⟩
      | none => simp [Kindled.get_note, hf] at hs
    · rintro ⟨d, hd, hn⟩
      cases hf : store.find? (fun d => d.unique_name == name) with
      | some d' => simp [Kindled.get_note, hf]
      | none =>
          rw [List.find?_eq_none] at hf
          exact absurd (by simpa using hn) (hf d hd)
  · intro hmiss
    have hf : store.find? (fun d => d.unique_name == name) = none := by
      rw [List.find?_eq_none]
      intro d hd
      simpa using hmiss d hd
    simp [Kindled.get_note, hf]

/-- C10 witness: a store holding `hope-star` answers 200 for `hope-star`
and the 404 body for `Hope-Star`. -/
theorem c10_lookup_case_sensitive_witness :
    ((Kindled.get_note
        [⟨1, Kindled.str "t", Kindled.str "c", Kindled.str "h",
          Kindled.str "hope-star", none⟩] (Kindled.str "hope-star")).status = 200) ∧
    Kindled.get_note
        [⟨1, Kindled.str "t", Kindled.str "c", Kindled.str "h",
          Kindled.str "hope-star", none⟩] (Kindled.str "Hope-Star") =
      ⟨404, .err [(Kindled.str "error", .s (Kindled.str "not found"))]⟩ :=
  ⟨(c10_lookup_case_sensitive
      [⟨1, Kindled.str "t", Kindled.str "c", Kindled.str "h",
        Kindled.str "hope-star", none⟩] (Kindled.str "hope-star")).1.mpr
      (by decide),
   (c10_lookup_case_sensitive
      [⟨1, Kindled.str "t", Kindled.str "c", Kindled.str "h",
        Kindled.str "hope-star", none⟩] (Kindled.str "Hope-Star")).2
      (by decide)⟩

namespace Kindled

lemma mem_collapseAux {p : Nat → Bool} {c : Nat} :
    ∀ {l : List Nat} {inRun : Bool}, c ∈ collapseAux p inRun l →
      c = 32 ∨ (c ∈ l ∧ p c = false) := by
  intro l
  induction l with
  | nil => intro inRun h; simp [collapseAux] at h
  | cons d ds ih =>
      intro inRun h
      by_cases hp : p d = true
      · cases inRun with
        | true =>
            simp only [collapseAux, hp, if_true, List.nil_append] at h
            rcases ih h with h32 | ⟨hm, hpc⟩
            · exact Or.inl h32
            · exact Or.inr ⟨List.mem_cons_of_mem d hm, hpc⟩
        | false =>
            simp only [collapseAux, hp, if_true, List.singleton_append] at h
            rcases List.mem_cons.mp h with h32 | h'
            · exact Or.inl h32
            · rcases ih h' with h32 | ⟨hm, hpc⟩
              · exact Or.inl h32
              · exact Or.inr ⟨List.mem_cons_of_mem d hm, hpc⟩
      · have hp' : p d = false := by
          cases hb : p d with
          | false => rfl
          | true => exact absurd hb hp
        simp only [collapseAux, hp', Bool.false_eq_true, if_false] at h
        rcases List.mem_cons.mp h with rfl | h'
        · exact Or.inr ⟨List.mem_cons_self _ _, hp'⟩
        · rcases ih h' with h32 | ⟨hm, hpc⟩
          · exact Or.inl h32
          · exact Or.inr ⟨List.mem_cons_of_mem d hm, hpc⟩

lemma collapseAux_chain (p : Nat → Bool) :
    ∀ (l : List Nat) (inRun : Bool),
      List.Chain' (fun a b => p a = false ∨ p b = false) (collapseAux p inRun l) ∧
      (inRun = true → ∀ c, (collapseAux p inRun l).head? = some c → p c = false) := by
  intro l
  induction l with
  | nil => intro inRun; exact ⟨List.chain'_nil, fun _ c h => by simp [collapseAux] at h⟩
  | cons d ds ih =>
      intro inRun
      by_cases hp : p d = true
      · cases inRun with
        | true =>
            simpa only [collapseAux, hp, if_true, List.nil_append] using ih true
        | false =>
            simp only [collapseAux, hp, if_true, List.singleton_append]
            refine ⟨List.chain'_cons'.mpr ⟨?_, (ih true).1⟩, fun h => absurd h (by simp)⟩
            intro y hy
            exact Or.inr ((ih true).2 rfl y hy)
      · have hp' : p d = false := by
          cases hb : p d with
          | false => rfl
          | true => exact absurd hb hp
        simp only [collapseAux, hp', Bool.false_eq_true, if_false]
        refine ⟨List.chain'_cons'.mpr ⟨fun y _ => Or.inl hp', (ih false).1⟩, ?_⟩
        intro _ c hc
        simp at hc
        rw [← hc]
        exact hp'

lemma exists_append_dropWhile (p : Nat → Bool) (l : List Nat) :
    ∃ s, s ++ l.dropWhile p = l := by
  induction l with
  | nil => exact ⟨[], rfl⟩
  | cons c cs ih =>
      by_cases hp : p c = true
      · obtain ⟨s, hs⟩ := ih
        exact ⟨c :: s, by simp [List.dropWhile_cons, hp, hs]⟩
      · have hp' : p c = false := by
          cases hb : p c with
          | false => rfl
          | true => exact absurd hb hp
        exact ⟨[], by simp [List.dropWhile_cons, hp']⟩

lemma head_dropWhile_false (p : Nat → Bool) :
    ∀ (l : List Nat) (c : Nat), (l.dropWhile p).head? = some c → p c = false := by
  intro l
  induction l with
  | nil => intro c h; simp at h
  | cons d ds ih =>
      intro c h
      by_cases hp : p d = true
      · rw [List.dropWhile_cons, if_pos hp] at h
        exact ih c h
      · have hp' : p d = false := by
          cases hb : p d with
          | false => rfl
          | true => exact absurd hb hp
        rw [List.dropWhile_cons, if_neg (by simp [hp'])] at h
        simp at h
        rw [← h]
        exact hp'

lemma stripWs_append_dropWhile (l : List Nat) :
    ∃ t, stripWs l ++ t = l.dropWhile isPySpace := by
  obtain ⟨u, hu⟩ := exists_append_dropWhile isPySpace (l.dropWhile isPySpace).reverse
  refine ⟨u.reverse, ?_⟩
  have := congrArg List.reverse hu
  simpa [stripWs] using this

lemma mem_stripWs {c : Nat} {l : List Nat} (h : c ∈ stripWs l) : c ∈ l := by
  obtain ⟨t, ht⟩ := stripWs_append_dropWhile l
  obtain ⟨s, hs⟩ := exists_append_dropWhile isPySpace l
  rw [← hs, ← ht]
  simp [h]

lemma chain_stripWs {R : Nat → Nat → Prop} {l : List Nat}
    (h : List.Chain' R l) : List.Chain' R (stripWs l) := by
  obtain ⟨t, ht⟩ := stripWs_append_dropWhile l
  obtain ⟨s, hs⟩ := exists_append_dropWhile isPySpace l
  rw [← hs] at h
  have h1 := (List.chain'_append.mp h).2.1
  rw [← ht] at h1
  exact (List.chain'_append.mp h1).1

lemma head_stripWs (l : List Nat) (c : Nat) (h : (stripWs l).head? = some c) :
    isPySpace c = false := by
  obtain ⟨t, ht⟩ := stripWs_append_dropWhile l
  apply head_dropWhile_false isPySpace l c
  rw [← ht]
  cases hst : stripWs l with
  | nil => rw [hst] at h; simp at h
  | cons a as =>
      rw [hst] at h
      simp at h
      simp [← h]

lemma head_take_pos {l : List Nat} {n : Nat} {c : Nat} (hn : 0 < n)
    (h : (l.take n).head? = some c) : l.head? = some c := by
  cases l with
  | nil => simp at h
  | cons a as =>
      obtain ⟨m, rfl⟩ := Nat.exists_eq_succ_of_ne_zero (by omega : n ≠ 0)
      rw [List.take_succ_cons] at h
      simpa using h

end Kindled

set_option maxRecDepth 100000 in
/-- C8 counterexample: on a 501-character input whose 500th character is a
space, `sanitize_search_query` truncates after stripping, so the returned
string ends in a whitespace character, contrary to the claim that the result
never ends with whitespace.  (`unicodedata.normalize("NFKC", ·)` is the
identity on this ASCII input, hence `id`.) -/
theorem c8_trailing_space_counterexample :
    (List.replicate 499 97 ++ [32, 98] : List Nat) ≠ [] ∧
    (Kindled.sanitize_search_query id
      (List.replicate 499 97 ++ [32, 98])).getLast? = some 32 ∧
    Kindled.isPySpace 32 = true := by
  refine ⟨by decide, by decide, by decide⟩

/-- C8 amended: for every input, the sanitized query contains no C0 control
characters, has no two adjacent whitespace characters, does not start with
whitespace, and has length at most 500; (the trailing-whitespace part of the
original claim fails, because truncation happens after stripping). -/
theorem c8_sanitize_properties (nfkc : List Nat → List Nat) (q : List Nat) :
    (∀ c ∈ Kindled.sanitize_search_query nfkc q, Kindled.isC0 c = false) ∧
    List.Chain'
      (fun a b => Kindled.isPySpace a = false ∨ Kindled.isPySpace b = false)
      (Kindled.sanitize_search_query nfkc q) ∧
    (∀ c, (Kindled.sanitize_search_query nfkc q).head? = some c →
      Kindled.isPySpace c = false) ∧
    (Kindled.sanitize_search_query nfkc q).length ≤ 500 := by
  have hdef : Kindled.sanitize_search_query nfkc q =
      (Kindled.stripWs (Kindled.replaceRuns Kindled.isPySpace
        (Kindled.replaceRuns Kindled.isC0 (nfkc q)))).take 500 := rfl
  refine ⟨?_, ?_, ?_, ?_⟩
  · intro c hc
    rw [hdef] at hc
    have hc2 := Kindled.mem_stripWs ((List.take_sublist 500 _).subset hc)
    rcases Kindled.mem_collapseAux hc2 with h32 | ⟨hc3, _⟩
    · rw [h32]; decide
    · rcases Kindled.mem_collapseAux hc3 with h32 | ⟨_, hc0⟩
      · rw [h32]; decide
      · exact hc0
  · rw [hdef]
    exact List.Chain'.take (Kindled.chain_stripWs
      (Kindled.collapseAux_chain Kindled.isPySpace _ false).1) 500
  · intro c h
    rw [hdef] at h
    exact Kindled.head_stripWs _ c (Kindled.head_take_pos (by omega) h)
  · rw [hdef, List.length_take]
    exact Nat.min_le_left _ _

/-- C8 witness: sanitizing `" a"` yields the single letter `a`, which is
neither a control character nor whitespace. -/
theorem c8_sanitize_properties_witness :
    Kindled.isC0 97 = false ∧ Kindled.isPySpace 97 = false :=
  ⟨(c8_sanitize_properties id (Kindled.str " a")).1 97 (by decide),
   (c8_sanitize_properties id (Kindled.str " a")).2.2.1 97 (by decide)⟩
